import Mathlib

/-!
# Verification of friendship-blaster's update-selection and manifest pipeline

Shallow embedding of the core of `friendship-blaster` (a docker-compose
supervisor that polls container registries and restarts the workload on
semver-compatible tag updates).  The embedding follows the TypeScript
sources:

* `src/pollImagesForUpdate.ts` — per-image tag selection via
  `semver.maxSatisfying(tags, "^" + currentTag)` and the `scan` aggregator;
* `src/index.ts` — manifest merge (`mergePollableImagesWithDockerComposeConfig`),
  tracked-image extraction (`getPollableImages`), and the version-store
  reconciliation (`getLatestPollableImages`);
* `src/docker.ts` — `assertDockerComposeConfig`, `pullChangedImages`, and the
  `restartVeryUnhealthyContainers` in-flight-restart discipline;
* `src/config.ts` — the `isSubDirectory` credentials-path validation.

The semver fragment embeds the `node-semver` (v7) semantics the source relies
on: version precedence (semver.org §11) and the caret range `^x.y.z` in the
library's default mode (pre-releases only satisfy a range when a comparator
carries a pre-release with the same `[major, minor, patch]` tuple).
-/

/-- Three-way comparison of naturals, used as the base of the semver order. -/
def natCmp (a b : Nat) : Ordering :=
  if a < b then .lt else if b < a then .gt else .eq

theorem natCmp_eq_eq {a b : Nat} : natCmp a b = .eq ↔ a = b := by
  unfold natCmp
  split <;> rename_i h
  · simp; omega
  · split <;> rename_i h2
    · simp; omega
    · simp; omega

theorem natCmp_eq_lt {a b : Nat} : natCmp a b = .lt ↔ a < b := by
  unfold natCmp
  split <;> rename_i h
  · simp; omega
  · split <;> simp <;> omega

theorem natCmp_eq_gt {a b : Nat} : natCmp a b = .gt ↔ b < a := by
  unfold natCmp
  split <;> rename_i h
  · simp; omega
  · split <;> simp <;> omega

theorem natCmp_swap (a b : Nat) : natCmp b a = (natCmp a b).swap := by
  simp only [natCmp]
  split_ifs <;> first | rfl | (exfalso; omega)

/-- Lexicographic extension of a comparator to lists (semver pre-release
precedence: element-wise, and a strict prefix precedes its extensions). -/
def lexCmp (cmp : α → α → Ordering) : List α → List α → Ordering
  | [], [] => .eq
  | [], _ :: _ => .lt
  | _ :: _, [] => .gt
  | a :: as, b :: bs =>
    match cmp a b with
    | .eq => lexCmp cmp as bs
    | o => o

theorem lexCmp_eq_eq {cmp : α → α → Ordering}
    (hcmp : ∀ a b, cmp a b = .eq ↔ a = b) :
    ∀ {l₁ l₂ : List α}, lexCmp cmp l₁ l₂ = .eq ↔ l₁ = l₂ := by
  intro l₁
  induction l₁ with
  | nil => intro l₂; cases l₂ <;> simp [lexCmp]
  | cons a as ih =>
    intro l₂
    cases l₂ with
    | nil => simp [lexCmp]
    | cons b bs =>
      simp only [lexCmp]
      rcases ho : cmp a b with _ | _ | _
      · simp only [List.cons.injEq]
        constructor
        · intro h; simp at h
        · rintro ⟨h1, _⟩; rw [(hcmp a b).mpr h1] at ho; simp at ho
      · rw [ih]
        have := (hcmp a b).mp ho
        simp [this]
      · simp only [List.cons.injEq]
        constructor
        · intro h; simp at h
        · rintro ⟨h1, _⟩; rw [(hcmp a b).mpr h1] at ho; simp at ho

theorem lexCmp_swap {cmp : α → α → Ordering}
    (hswap : ∀ a b, cmp b a = (cmp a b).swap) :
    ∀ (l₁ l₂ : List α), lexCmp cmp l₂ l₁ = (lexCmp cmp l₁ l₂).swap := by
  intro l₁
  induction l₁ with
  | nil => intro l₂; cases l₂ <;> simp [lexCmp, Ordering.swap]
  | cons a as ih =>
    intro l₂
    cases l₂ with
    | nil => simp [lexCmp, Ordering.swap]
    | cons b bs =>
      simp only [lexCmp, hswap a b]
      rcases cmp a b with _ | _ | _ <;> simp [Ordering.swap, ih]

theorem lexCmp_lt_trans {cmp : α → α → Ordering}
    (hcmp : ∀ a b, cmp a b = .eq ↔ a = b)
    (htr : ∀ {a b c}, cmp a b = .lt → cmp b c = .lt → cmp a c = .lt) :
    ∀ {l₁ l₂ l₃ : List α}, lexCmp cmp l₁ l₂ = .lt → lexCmp cmp l₂ l₃ = .lt →
      lexCmp cmp l₁ l₃ = .lt := by
  intro l₁
  induction l₁ with
  | nil =>
    intro l₂ l₃ h12 h23
    cases l₂ with
    | nil => cases l₃ <;> simp_all [lexCmp]
    | cons b bs =>
      cases l₃ with
      | nil => simp [lexCmp] at h23
      | cons c cs => simp [lexCmp]
  | cons a as ih =>
    intro l₂ l₃ h12 h23
    cases l₂ with
    | nil => simp [lexCmp] at h12
    | cons b bs =>
      cases l₃ with
      | nil => simp [lexCmp] at h23
      | cons c cs =>
        simp only [lexCmp] at h12 h23 ⊢
        rcases hab : cmp a b with _ | _ | _ <;> simp only [hab] at h12
        · rcases hbc : cmp b c with _ | _ | _ <;> simp only [hbc] at h23
          · simp only [htr hab hbc]
          · have hbceq := (hcmp b c).mp hbc
            subst hbceq
            simp only [hab]
          · simp at h23
        · have habeq := (hcmp a b).mp hab
          subst habeq
          rcases hac : cmp a c with _ | _ | _ <;> simp only [hac] at h23 ⊢
          · exact ih h12 h23
          · exact h23
        · simp at h12

/-- A semver pre-release identifier: numeric identifiers compare numerically
and precede alphanumeric identifiers (semver.org §11, node-semver
`compareIdentifiers`). -/
inductive PreId
  | num (n : Nat)
  | str (s : String)
deriving DecidableEq, Repr

/-- A parsed semantic version, as `node-semver`'s `SemVer` class holds it
(build metadata is dropped: it never participates in precedence). -/
structure Semver where
  major : Nat
  minor : Nat
  patch : Nat
  prerelease : List PreId
deriving DecidableEq, Repr

/-- JS string comparison on the characters (`a < b ? -1 : a > b ? 1 : 0`). -/
def charCmp (a b : Char) : Ordering :=
  natCmp a.toNat b.toNat

theorem charCmp_eq_eq {a b : Char} : charCmp a b = .eq ↔ a = b := by
  unfold charCmp
  rw [natCmp_eq_eq]
  constructor
  · intro h; exact Char.ext (UInt32.ext h)
  · intro h; rw [h]

theorem charCmp_swap (a b : Char) : charCmp b a = (charCmp a b).swap :=
  natCmp_swap _ _

theorem charCmp_lt_trans {a b c : Char} (h₁ : charCmp a b = .lt)
    (h₂ : charCmp b c = .lt) : charCmp a c = .lt := by
  unfold charCmp at *
  rw [natCmp_eq_lt] at *
  omega

/-- `node-semver`'s `compareIdentifiers`: numbers numerically, numbers below
alphanumeric identifiers, alphanumeric identifiers by string comparison. -/
def preIdCmp : PreId → PreId → Ordering
  | .num a, .num b => natCmp a b
  | .num _, .str _ => .lt
  | .str _, .num _ => .gt
  | .str a, .str b => lexCmp charCmp a.data b.data

theorem preIdCmp_eq_eq {a b : PreId} : preIdCmp a b = .eq ↔ a = b := by
  cases a <;> cases b
  · simp [preIdCmp, natCmp_eq_eq]
  · simp [preIdCmp]
  · simp [preIdCmp]
  · rename_i s₁ s₂
    show lexCmp charCmp s₁.data s₂.data = .eq ↔ _
    rw [lexCmp_eq_eq (fun _ _ => charCmp_eq_eq)]
    constructor
    · intro h; simp only [PreId.str.injEq]; exact String.ext h
    · intro h
      cases h
      rfl

theorem preIdCmp_swap (a b : PreId) : preIdCmp b a = (preIdCmp a b).swap := by
  cases a <;> cases b
  · exact natCmp_swap _ _
  · rfl
  · rfl
  · exact lexCmp_swap charCmp_swap _ _

theorem preIdCmp_lt_trans {a b c : PreId} (h₁ : preIdCmp a b = .lt)
    (h₂ : preIdCmp b c = .lt) : preIdCmp a c = .lt := by
  cases a <;> cases b <;> cases c <;> simp only [preIdCmp] at h₁ h₂ ⊢ <;>
    first
    | rfl
    | exact h₁
    | exact h₂
    | (rw [natCmp_eq_lt] at *; omega)
    | exact lexCmp_lt_trans (fun _ _ => charCmp_eq_eq)
        (fun h h' => charCmp_lt_trans h h') h₁ h₂
    | simp_all

/-- Pre-release rank within one main tuple: a version without a pre-release
outranks any pre-release of the same main tuple (semver.org §11.3). -/
def preRankCmp : List PreId → List PreId → Ordering
  | [], [] => .eq
  | [], _ :: _ => .gt
  | _ :: _, [] => .lt
  | a :: as, b :: bs => lexCmp preIdCmp (a :: as) (b :: bs)

theorem preRankCmp_eq_eq {a b : List PreId} : preRankCmp a b = .eq ↔ a = b := by
  cases a <;> cases b
  · simp [preRankCmp]
  · simp [preRankCmp]
  · simp [preRankCmp]
  · show lexCmp preIdCmp _ _ = .eq ↔ _
    exact lexCmp_eq_eq (fun _ _ => preIdCmp_eq_eq)

theorem preRankCmp_swap (a b : List PreId) :
    preRankCmp b a = (preRankCmp a b).swap := by
  cases a <;> cases b
  · rfl
  · rfl
  · rfl
  · exact lexCmp_swap preIdCmp_swap _ _

theorem preRankCmp_lt_trans {a b c : List PreId} (h₁ : preRankCmp a b = .lt)
    (h₂ : preRankCmp b c = .lt) : preRankCmp a c = .lt := by
  cases a <;> cases b <;> cases c <;>
    simp only [preRankCmp] at h₁ h₂ ⊢ <;>
    first
    | rfl
    | exact h₁
    | exact h₂
    | exact lexCmp_lt_trans (fun _ _ => preIdCmp_eq_eq)
        (fun h h' => preIdCmp_lt_trans h h') h₁ h₂
    | simp_all [lexCmp]

theorem ordSwapThen (o₁ o₂ : Ordering) :
    (o₁.then o₂).swap = o₁.swap.then o₂.swap := by
  cases o₁ <;> cases o₂ <;> rfl

theorem ordThen_eq_eq {o₁ o₂ : Ordering} :
    o₁.then o₂ = .eq ↔ o₁ = .eq ∧ o₂ = .eq := by
  cases o₁ <;> simp [Ordering.then]

theorem ordThen_eq_lt {o₁ o₂ : Ordering} :
    o₁.then o₂ = .lt ↔ o₁ = .lt ∨ (o₁ = .eq ∧ o₂ = .lt) := by
  cases o₁ <;> simp [Ordering.then]

/-- Semver precedence, as `node-semver`'s `SemVer.compare` implements it:
main tuple lexicographically, then the pre-release rank. -/
def Semver.compare (a b : Semver) : Ordering :=
  (natCmp a.major b.major).then
    ((natCmp a.minor b.minor).then
      ((natCmp a.patch b.patch).then
        (preRankCmp a.prerelease b.prerelease)))

theorem Semver.compare_eq_eq {a b : Semver} :
    Semver.compare a b = .eq ↔ a = b := by
  cases a; cases b
  simp only [Semver.compare, ordThen_eq_eq, natCmp_eq_eq, preRankCmp_eq_eq,
    Semver.mk.injEq]

theorem Semver.compare_refl (a : Semver) : Semver.compare a a = .eq :=
  Semver.compare_eq_eq.mpr rfl

theorem Semver.compare_swap (a b : Semver) :
    Semver.compare b a = (Semver.compare a b).swap := by
  simp only [Semver.compare, ordSwapThen, ← natCmp_swap, ← preRankCmp_swap]

theorem Semver.compare_lt_iff {a b : Semver} :
    Semver.compare a b = .lt ↔
      a.major < b.major ∨ (a.major = b.major ∧
        (a.minor < b.minor ∨ (a.minor = b.minor ∧
          (a.patch < b.patch ∨ (a.patch = b.patch ∧
            preRankCmp a.prerelease b.prerelease = .lt))))) := by
  simp only [Semver.compare, ordThen_eq_lt, ordThen_eq_eq, natCmp_eq_lt,
    natCmp_eq_eq]

theorem Semver.compare_lt_trans {a b c : Semver}
    (h₁ : Semver.compare a b = .lt) (h₂ : Semver.compare b c = .lt) :
    Semver.compare a c = .lt := by
  rw [Semver.compare_lt_iff] at *
  obtain h₁ | ⟨e₁, h₁⟩ := h₁ <;> obtain h₂ | ⟨e₂, h₂⟩ := h₂
  · left; omega
  · left; omega
  · left; omega
  · right
    refine ⟨by omega, ?_⟩
    obtain h₁ | ⟨f₁, h₁⟩ := h₁ <;> obtain h₂ | ⟨f₂, h₂⟩ := h₂
    · left; omega
    · left; omega
    · left; omega
    · right
      refine ⟨by omega, ?_⟩
      obtain h₁ | ⟨g₁, h₁⟩ := h₁ <;> obtain h₂ | ⟨g₂, h₂⟩ := h₂
      · left; omega
      · left; omega
      · left; omega
      · exact Or.inr ⟨by omega, preRankCmp_lt_trans h₁ h₂⟩

/-- `a ≤ b` in semver precedence (the comparison does not return `gt`). -/
def svLe (a b : Semver) : Prop := Semver.compare a b ≠ .gt

instance (a b : Semver) : Decidable (svLe a b) := by
  unfold svLe; infer_instance

theorem svLe_refl (a : Semver) : svLe a a := by
  unfold svLe
  rw [Semver.compare_refl]
  simp

theorem svLe_iff_not_lt_rev {a b : Semver} :
    svLe a b ↔ Semver.compare b a ≠ .lt := by
  unfold svLe
  rw [Semver.compare_swap b a]
  cases hc : Semver.compare b a <;> simp [Ordering.swap]

theorem svLe_of_compare_ne_lt {a b : Semver} (h : Semver.compare a b ≠ .lt) :
    svLe b a := svLe_iff_not_lt_rev.mpr h

theorem svLe_trans {a b c : Semver} (h₁ : svLe a b) (h₂ : svLe b c) :
    svLe a c := by
  unfold svLe at *
  rcases hab : Semver.compare a b with _ | _ | _ <;> rw [hab] at h₁
  · rcases hbc : Semver.compare b c with _ | _ | _ <;> rw [hbc] at h₂
    · rw [Semver.compare_lt_trans hab hbc]; simp
    · have heq := Semver.compare_eq_eq.mp hbc
      subst heq
      rw [hab]; simp
    · exact absurd rfl h₂
  · have heq := Semver.compare_eq_eq.mp hab
    subst heq
    exact h₂
  · exact absurd rfl h₁

theorem svLe_lt_trans {a b c : Semver} (h₁ : svLe a b)
    (h₂ : Semver.compare b c = .lt) : svLe a c := by
  unfold svLe at *
  rcases hab : Semver.compare a b with _ | _ | _ <;> rw [hab] at h₁
  · rw [Semver.compare_lt_trans hab h₂]; simp
  · have heq := Semver.compare_eq_eq.mp hab
    subst heq
    rw [h₂]; simp
  · exact absurd rfl h₁

/-- The `[major, minor, patch]` tuple of a version. -/
def mainTuple (v : Semver) : Nat × Nat × Nat := (v.major, v.minor, v.patch)

/-- Strict lexicographic order on main tuples. -/
def tripleLtP (a b : Nat × Nat × Nat) : Prop :=
  a.1 < b.1 ∨ (a.1 = b.1 ∧ (a.2.1 < b.2.1 ∨ (a.2.1 = b.2.1 ∧ a.2.2 < b.2.2)))

instance (a b : Nat × Nat × Nat) : Decidable (tripleLtP a b) := by
  unfold tripleLtP; infer_instance

/-- The exclusive upper bound of the caret range `^t`: next major for
`^1.2.3`, next minor for `^0.2.3`, next patch for `^0.0.3` (node-semver
desugars `^t` to `>=t <upper-0`). -/
def caretUpper (t : Semver) : Nat × Nat × Nat :=
  if 0 < t.major then (t.major + 1, 0, 0)
  else if 0 < t.minor then (0, t.minor + 1, 0)
  else (0, 0, t.patch + 1)

/-- `v` satisfies the range `^t` under node-semver's default options:
`t ≤ v`, the main tuple of `v` lies below the caret bound of `t`, and a
pre-release `v` is only admitted when `t` itself is a pre-release of the
same main tuple. -/
def caretSatisfies (t v : Semver) : Bool :=
  decide (svLe t v) &&
  decide (tripleLtP (mainTuple v) (caretUpper t)) &&
  (v.prerelease.isEmpty ||
    (!t.prerelease.isEmpty && decide (mainTuple v = mainTuple t)))

theorem caretSatisfies_iff {t v : Semver} :
    caretSatisfies t v = true ↔
      svLe t v ∧ tripleLtP (mainTuple v) (caretUpper t) ∧
        (v.prerelease = [] ∨
          (t.prerelease ≠ [] ∧ mainTuple v = mainTuple t)) := by
  unfold caretSatisfies
  simp [List.isEmpty_iff, and_assoc]

theorem caretSatisfies_refl {t : Semver} : caretSatisfies t t = true := by
  rw [caretSatisfies_iff]
  refine ⟨svLe_refl t, ?_, ?_⟩
  · unfold tripleLtP caretUpper mainTuple
    split_ifs <;> simp <;> omega
  · cases h : t.prerelease
    · left; rfl
    · right; simp [h]

/-- `t ≤ v` in semver precedence forces the main tuples into (non-strict)
lexicographic order. -/
theorem svLe_mainTuple {t v : Semver} (h : svLe t v) :
    t.major < v.major ∨ (t.major = v.major ∧
      (t.minor < v.minor ∨ (t.minor = v.minor ∧ t.patch ≤ v.patch))) := by
  unfold svLe at h
  rcases hc : Semver.compare t v with _ | _ | _
  · rw [Semver.compare_lt_iff] at hc
    rcases hc with h₁ | ⟨e₁, h₁ | ⟨e₂, h₁ | ⟨e₃, _⟩⟩⟩
    · left; exact h₁
    · right; exact ⟨e₁, Or.inl h₁⟩
    · right; exact ⟨e₁, Or.inr ⟨e₂, by omega⟩⟩
    · right; exact ⟨e₁, Or.inr ⟨e₂, by omega⟩⟩
  · rw [Semver.compare_eq_eq.mp hc]
    right; exact ⟨rfl, Or.inr ⟨rfl, le_refl _⟩⟩
  · exact absurd hc h

/-- Everything in the caret range of `t` has the same caret bound as `t`. -/
theorem caretUpper_eq_of_caretSatisfies {t v : Semver}
    (h : caretSatisfies t v = true) : caretUpper v = caretUpper t := by
  rw [caretSatisfies_iff] at h
  obtain ⟨hle, hbound, -⟩ := h
  have htuple := svLe_mainTuple hle
  unfold tripleLtP mainTuple caretUpper at *
  split_ifs with h₁ h₂ h₃ h₄ h₅ h₆ <;> simp_all [Prod.ext_iff] <;> omega

theorem caretSatisfies_trans {t v w : Semver}
    (h₁ : caretSatisfies t v = true) (h₂ : caretSatisfies v w = true) :
    caretSatisfies t w = true := by
  have hupper := caretUpper_eq_of_caretSatisfies h₁
  rw [caretSatisfies_iff] at *
  obtain ⟨le₁, bound₁, pre₁⟩ := h₁
  obtain ⟨le₂, bound₂, pre₂⟩ := h₂
  refine ⟨svLe_trans le₁ le₂, by rw [← hupper]; exact bound₂, ?_⟩
  rcases pre₂ with hw | ⟨hvpre, hvw⟩
  · left; exact hw
  · rcases pre₁ with hv | ⟨htpre, htv⟩
    · exact absurd hv hvpre
    · right; exact ⟨htpre, hvw.trans htv⟩

theorem caretSatisfies_implies_le {t v : Semver}
    (h : caretSatisfies t v = true) : svLe t v :=
  (caretSatisfies_iff.mp h).1

/-- Split a character list at the first occurrence of `c`
(`none` when `c` does not occur). -/
def splitFirst (c : Char) : List Char → Option (List Char × List Char)
  | [] => none
  | x :: xs =>
    if x = c then some ([], xs)
    else (splitFirst c xs).map (fun p => (x :: p.1, p.2))

/-- Split a character list on every occurrence of `c`
(like JS `String.prototype.split`: `n` separators give `n + 1` fields). -/
def splitOnChar (c : Char) : List Char → List (List Char)
  | [] => [[]]
  | x :: xs =>
    let r := splitOnChar c xs
    if x = c then [] :: r
    else
      match r with
      | [] => [[x]]
      | h :: t => (x :: h) :: t

/-- Characters allowed in semver pre-release and build identifiers. -/
def isIdentChar (c : Char) : Bool := c.isDigit || c.isAlpha || c = '-'

/-- Decimal value of a digit string. -/
def digitsVal (cs : List Char) : Nat :=
  cs.foldl (fun acc c => acc * 10 + (c.toNat - 48)) 0

/-- JS `Number.MAX_SAFE_INTEGER`. -/
def maxSafeInteger : Nat := 9007199254740991

/-- Parse a main-version numeric component (`0|[1-9]\d*`); node-semver
rejects components above `MAX_SAFE_INTEGER`. -/
def parseMainNum (cs : List Char) : Option Nat :=
  if cs.isEmpty then none
  else if !cs.all Char.isDigit then none
  else if 1 < cs.length && cs.head? == some '0' then none
  else
    let n := digitsVal cs
    if maxSafeInteger < n then none else some n

/-- Parse one pre-release identifier: a numeric identifier (no leading
zeros) becomes `PreId.num` when below `MAX_SAFE_INTEGER`, any other
`[0-9A-Za-z-]+` word with at least one non-digit becomes `PreId.str`
(mirroring node-semver's `SemVer` constructor). -/
def parsePreId (cs : List Char) : Option PreId :=
  if cs.isEmpty then none
  else if cs.all Char.isDigit then
    if 1 < cs.length && cs.head? == some '0' then none
    else
      let n := digitsVal cs
      if n < maxSafeInteger then some (.num n) else some (.str ⟨cs⟩)
  else if cs.all isIdentChar then some (.str ⟨cs⟩)
  else none

/-- A build-metadata identifier: `[0-9A-Za-z-]+`. -/
def validBuildId (cs : List Char) : Bool := !cs.isEmpty && cs.all isIdentChar

/-- Parse `X.Y.Z` into the main tuple. -/
def parseMainPart (cs : List Char) : Option (Nat × Nat × Nat) :=
  match splitOnChar '.' cs with
  | [ma, mi, pa] =>
    match parseMainNum ma, parseMainNum mi, parseMainNum pa with
    | some M, some m, some p => some (M, m, p)
    | _, _, _ => none
  | _ => none

/-- Parse a tag string as node-semver's default (strict) `SemVer` parser
does: at most 256 characters, surrounding whitespace trimmed, an optional
`v` prefix, `X.Y.Z`, an optional `-pre.release.ids` part and an optional
`+build` part (dropped). Returns `none` exactly when node-semver treats
the string as an invalid version. -/
def parseSemver (s : String) : Option Semver :=
  if 256 < s.data.length then none
  else
    let cs := (s.data.dropWhile Char.isWhitespace).reverse.dropWhile
      Char.isWhitespace |>.reverse
    let cs := match cs with
      | 'v' :: rest => rest
      | other => other
    let (verPart, buildPart) := match splitFirst '+' cs with
      | none => (cs, none)
      | some (a, b) => (a, some b)
    let (mainPart, prePart) := match splitFirst '-' verPart with
      | none => (verPart, none)
      | some (a, b) => (a, some b)
    match parseMainPart mainPart with
    | none => none
    | some (M, m, p) =>
      let preIds : Option (List PreId) := match prePart with
        | none => some []
        | some pcs => (splitOnChar '.' pcs).mapM parsePreId
      match preIds with
      | none => none
      | some pre =>
        let buildOk := match buildPart with
          | none => true
          | some bcs => (splitOnChar '.' bcs).all validBuildId
        if buildOk then some ⟨M, m, p, pre⟩ else none

example : parseSemver "1.2.3" = some ⟨1, 2, 3, []⟩ := by decide
example : parseSemver "v10.0.1" = some ⟨10, 0, 1, []⟩ := by decide
example : parseSemver " 1.2.3-alpha.7+build5 " =
    some ⟨1, 2, 3, [.str "alpha", .num 7]⟩ := by decide
example : parseSemver "1.2" = none := by decide
example : parseSemver "01.2.3" = none := by decide
example : parseSemver "1.2.3-" = none := by decide
example : parseSemver "1.2.3-00" = none := by decide
example : parseSemver "5.0-alpine" = none := by decide
example : caretSatisfies ⟨1, 2, 3, []⟩ ⟨1, 9, 0, []⟩ = true := by decide
example : caretSatisfies ⟨1, 2, 3, []⟩ ⟨2, 0, 0, []⟩ = false := by decide
example : caretSatisfies ⟨0, 2, 3, []⟩ ⟨0, 3, 0, []⟩ = false := by decide
example : caretSatisfies ⟨0, 2, 3, []⟩ ⟨0, 2, 9, []⟩ = true := by decide
example : caretSatisfies ⟨1, 2, 3, []⟩ ⟨1, 9, 0, [.str "rc"]⟩ = false := by decide
example : caretSatisfies ⟨1, 2, 3, [.str "a"]⟩ ⟨1, 2, 3, [.str "b"]⟩ = true := by
  decide

/-- A docker image together with its repo url and tag
(`TaggedImage` in `src/docker.ts`). -/
structure TaggedImage where
  repoUrl : String
  image : String
  tag : String
deriving DecidableEq, Repr

/-- Does the tag string `w` satisfy the range `^t` (for a parsed current
version `t`)?  Tags that do not parse as semver satisfy nothing
(node-semver's `Range.test` returns `false` on an unparseable version). -/
def tagSat (t : Semver) (w : String) : Bool :=
  match parseSemver w with
  | some wv => caretSatisfies t wv
  | none => false

/-- The fold inside node-semver's `maxSatisfying`: keep the first-seen
maximum (under semver precedence) among the tags satisfying the range. -/
def maxSatLoop (t : Semver) (state : Option (String × Semver)) :
    List String → Option (String × Semver)
  | [] => state
  | v :: rest =>
    let state' := match parseSemver v with
      | none => state
      | some sv =>
        if caretSatisfies t sv then
          match state with
          | none => some (v, sv)
          | some (m, msv) =>
            if Semver.compare msv sv = .lt then some (v, sv) else some (m, msv)
        else state
    maxSatLoop t state' rest

/-- `semver.maxSatisfying(tags, "^" + current)` as the source calls it:
`null` when the range itself does not parse (invalid current tag) or when
no tag satisfies it; otherwise the original string of the greatest
satisfying tag.  The range `^current` is modelled for `current` a full
semver, per the spec's data model ("tag is a semver string"); node-semver
would additionally accept a partial current version (`^5.0`) in a range,
while a non-semver tag such as `5.0-alpine` fails range construction in
both the library and this model. -/
def maxSatisfying (tags : List String) (current : String) : Option String :=
  match parseSemver current with
  | none => none
  | some t => (maxSatLoop t none tags).map (fun p => p.1)

/-- One registry poll for one image (`pollImageForUpdates` in
`src/pollImagesForUpdate.ts`, the pure part of the `map`/`filter` pair):
the emitted image, or `none` when nothing is emitted. -/
def pollImageForUpdates (pollableImage : TaggedImage) (tags : List String) :
    Option TaggedImage :=
  match maxSatisfying tags pollableImage.tag with
  | none => none
  | some nextTag =>
    if nextTag = pollableImage.tag then none
    else some { pollableImage with tag := nextTag }

/-- One tick of the per-image `switchScan` accumulator: the emission (if
any) together with the accumulator value for the next tick (`mergeScan`
keeps the previous accumulator when the inner observable emits nothing). -/
def pollStep (pollableImage : TaggedImage) (tags : List String) :
    Option TaggedImage × TaggedImage :=
  match pollImageForUpdates pollableImage tags with
  | none => (none, pollableImage)
  | some i => (some i, i)

/-- A whole run of the per-image poller: the list of emissions over a
sequence of ticks, each tick seeing the tag list its registry returned. -/
def pollRun (pollableImage : TaggedImage) : List (List String) → List TaggedImage
  | [] => []
  | tags :: rest =>
    match pollImageForUpdates pollableImage tags with
    | none => pollRun pollableImage rest
    | some i => i :: pollRun i rest

theorem maxSatLoop_none_iff {t : Semver} :
    ∀ {l : List String} {st : Option (String × Semver)},
      maxSatLoop t st l = none ↔ st = none ∧ ∀ w ∈ l, tagSat t w = false := by
  intro l
  induction l with
  | nil => intro st; simp [maxSatLoop]
  | cons v rest ih =>
    intro st
    simp only [maxSatLoop]
    rcases hp : parseSemver v with _ | sv
    · rw [ih]
      simp [tagSat, hp]
    · by_cases hsat : caretSatisfies t sv = true
      · rcases st with _ | ⟨m, msv⟩
        · simp only [hsat, if_true, ih]
          constructor
          · rintro ⟨h, -⟩; simp at h
          · rintro ⟨-, hall⟩
            have := hall v (by simp)
            simp [tagSat, hp, hsat] at this
        · simp only [hsat, if_true, ih]
          constructor
          · rintro ⟨h, -⟩
            split at h <;> simp at h
          · rintro ⟨h, -⟩; simp at h
      · simp only [Bool.not_eq_true] at hsat
        simp only [hsat, if_false, ih]
        simp [tagSat, hp, hsat]

theorem maxSatLoop_grows {t : Semver} :
    ∀ {l : List String} {m : String} {msv : Semver},
      ∃ m' msv', maxSatLoop t (some (m, msv)) l = some (m', msv') ∧
        svLe msv msv' := by
  intro l
  induction l with
  | nil => intro m msv; exact ⟨m, msv, rfl, svLe_refl _⟩
  | cons v rest ih =>
    intro m msv
    simp only [maxSatLoop]
    rcases hp : parseSemver v with _ | sv
    · exact ih
    · by_cases hsat : caretSatisfies t sv = true
      · simp only [hsat, if_true]
        by_cases hlt : Semver.compare msv sv = .lt
        · simp only [hlt, if_true]
          obtain ⟨m', msv', hres, hle⟩ := @ih v sv
          exact ⟨m', msv', hres, svLe_trans (svLe_lt_trans (svLe_refl _) hlt) hle⟩
        · simp only [hlt, if_false]
          exact ih
      · simp only [Bool.not_eq_true] at hsat
        simp only [hsat, if_false]
        exact ih

theorem maxSatLoop_shape {t : Semver} :
    ∀ {l : List String} {st : Option (String × Semver)} {m' : String}
      {msv' : Semver},
      maxSatLoop t st l = some (m', msv') →
      st = some (m', msv') ∨
        (m' ∈ l ∧ parseSemver m' = some msv' ∧ caretSatisfies t msv' = true) := by
  intro l
  induction l with
  | nil => intro st m' msv' h; left; exact h
  | cons v rest ih =>
    intro st m' msv' h
    simp only [maxSatLoop] at h
    rcases hp : parseSemver v with _ | sv <;> simp only [hp] at h
    · rcases ih h with h' | ⟨hm, hps, hsat⟩
      · left; exact h'
      · right; exact ⟨List.mem_cons_of_mem _ hm, hps, hsat⟩
    · by_cases hsat : caretSatisfies t sv = true
      · simp only [hsat, if_true] at h
        rcases st with _ | ⟨m, msv⟩
        · rcases ih h with h' | ⟨hm, hps, hsat'⟩
          · right
            obtain ⟨rfl, rfl⟩ : v = m' ∧ sv = msv' := by
              injection h' with h'; injection h' with h1 h2; exact ⟨h1, h2⟩
            exact ⟨List.mem_cons_self _ _, hp, hsat⟩
          · right; exact ⟨List.mem_cons_of_mem _ hm, hps, hsat'⟩
        · by_cases hlt : Semver.compare msv sv = .lt
          · simp only [hlt, if_true] at h
            rcases ih h with h' | ⟨hm, hps, hsat'⟩
            · right
              obtain ⟨rfl, rfl⟩ : v = m' ∧ sv = msv' := by
                injection h' with h'; injection h' with h1 h2
                exact ⟨h1, h2⟩
              exact ⟨List.mem_cons_self _ _, hp, hsat⟩
            · right; exact ⟨List.mem_cons_of_mem _ hm, hps, hsat'⟩
          · simp only [if_neg hlt] at h
            rcases ih h with h' | ⟨hm, hps, hsat'⟩
            · left; exact h'
            · right; exact ⟨List.mem_cons_of_mem _ hm, hps, hsat'⟩
      · simp only [Bool.not_eq_true] at hsat
        simp only [hsat, Bool.false_eq_true, if_false] at h
        rcases ih h with h' | ⟨hm, hps, hsat'⟩
        · left; exact h'
        · right; exact ⟨List.mem_cons_of_mem _ hm, hps, hsat'⟩

theorem maxSatLoop_max {t : Semver} :
    ∀ {l : List String} {st : Option (String × Semver)} {m' : String}
      {msv' : Semver},
      maxSatLoop t st l = some (m', msv') →
      ∀ w ∈ l, ∀ wv, parseSemver w = some wv → caretSatisfies t wv = true →
        svLe wv msv' := by
  intro l
  induction l with
  | nil => intro st m' msv' _ w hw; simp at hw
  | cons v rest ih =>
    intro st m' msv' h w hw wv hpw hsat
    simp only [maxSatLoop] at h
    rcases List.mem_cons.mp hw with rfl | hw'
    · -- w is the head: the state after the head step dominates wv
      simp only [hpw, hsat, if_true] at h
      rcases st with _ | ⟨m, msv⟩
      · -- state became (w, wv); the final result grew from it
        obtain ⟨m'', msv'', hres, hle⟩ := @maxSatLoop_grows t rest w wv
        rw [hres] at h
        injection h with h; injection h with h1 h2
        subst h1; subst h2
        exact hle
      · by_cases hlt : Semver.compare msv wv = .lt
        · simp only [hlt, if_true] at h
          obtain ⟨m'', msv'', hres, hle⟩ := @maxSatLoop_grows t rest w wv
          rw [hres] at h
          injection h with h; injection h with h1 h2
          subst h1; subst h2
          exact hle
        · simp only [hlt, if_false] at h
          obtain ⟨m'', msv'', hres, hle⟩ := @maxSatLoop_grows t rest m msv
          rw [hres] at h
          injection h with h; injection h with h1 h2
          subst h1; subst h2
          exact svLe_trans (svLe_of_compare_ne_lt hlt) hle
    · -- w is in the tail: induction with the updated state
      exact ih h w hw' wv hpw hsat

/-- Does the tag string `w` satisfy `^t` for a current tag string `t`?
False whenever either string is not a valid semver (an invalid current tag
makes the range construction fail, so `maxSatisfying` yields `null`). -/
def tagSatisfiesCaret (t w : String) : Bool :=
  match parseSemver t with
  | some tv => tagSat tv w
  | none => false

/-- Semver comparison lifted to tag strings (`a ≤ b`; false when either
side is unparseable). -/
def semverStrLe (a b : String) : Bool :=
  match parseSemver a, parseSemver b with
  | some av, some bv => decide (svLe av bv)
  | _, _ => false

theorem pollImage_some_spec {img img' : TaggedImage} {tags : List String}
    (h : pollImageForUpdates img tags = some img') :
    ∃ tv iv, parseSemver img.tag = some tv ∧ parseSemver img'.tag = some iv ∧
      img'.repoUrl = img.repoUrl ∧ img'.image = img.image ∧
      img'.tag ∈ tags ∧ caretSatisfies tv iv = true ∧ img'.tag ≠ img.tag ∧
      ∀ w ∈ tags, ∀ wv, parseSemver w = some wv →
        caretSatisfies tv wv = true → svLe wv iv := by
  unfold pollImageForUpdates at h
  rcases hmax : maxSatisfying tags img.tag with _ | nextTag
  · simp only [hmax] at h
    exact Option.noConfusion h
  · simp only [hmax] at h
    by_cases hne : nextTag = img.tag
    · rw [if_pos hne] at h; simp at h
    · rw [if_neg hne] at h
      injection h with h
      subst h
      unfold maxSatisfying at hmax
      rcases hpt : parseSemver img.tag with _ | tv
      · simp only [hpt] at hmax
        exact Option.noConfusion hmax
      · simp only [hpt] at hmax
        rcases hloop : maxSatLoop tv none tags with _ | ⟨m', msv'⟩
        · simp only [hloop, Option.map_none'] at hmax
          exact Option.noConfusion hmax
        · simp only [hloop, Option.map_some'] at hmax
          injection hmax with hmax
          subst hmax
          rcases maxSatLoop_shape hloop with hst | ⟨hmem, hps, hsat⟩
          · simp at hst
          · exact ⟨tv, msv', rfl, hps, rfl, rfl, hmem, hsat, hne,
              fun w hw wv hpw hsatw => maxSatLoop_max hloop w hw wv hpw hsatw⟩

theorem pollImage_none_spec {img : TaggedImage} {tags : List String}
    (h : pollImageForUpdates img tags = none) :
    (∀ w ∈ tags, tagSatisfiesCaret img.tag w = false) ∨
      maxSatisfying tags img.tag = some img.tag := by
  unfold pollImageForUpdates at h
  rcases hmax : maxSatisfying tags img.tag with _ | nextTag
  · left
    intro w hw
    unfold maxSatisfying at hmax
    unfold tagSatisfiesCaret
    rcases hpt : parseSemver img.tag with _ | tv
    · simp only [hpt]
    · simp only [hpt] at hmax ⊢
      rcases hloop : maxSatLoop tv none tags with _ | p
      · exact (maxSatLoop_none_iff.mp hloop).2 w hw
      · simp only [hloop, Option.map_some'] at hmax
        exact Option.noConfusion hmax
  · simp only [hmax] at h
    by_cases hne : nextTag = img.tag
    · right; rw [hne]
    · rw [if_neg hne] at h; simp at h

theorem pollImage_none_of_nosat {img : TaggedImage} {tags : List String}
    (h : ∀ w ∈ tags, tagSatisfiesCaret img.tag w = false) :
    pollImageForUpdates img tags = none := by
  unfold pollImageForUpdates
  suffices hmax : maxSatisfying tags img.tag = none by simp only [hmax]
  unfold maxSatisfying
  rcases hpt : parseSemver img.tag with _ | tv
  · simp only [hpt]
  · simp only [hpt]
    have hloop : maxSatLoop tv none tags = none := by
      refine maxSatLoop_none_iff.mpr ⟨rfl, ?_⟩
      intro w hw
      have hsw := h w hw
      unfold tagSatisfiesCaret at hsw
      rw [hpt] at hsw
      exact hsw
    simp only [hloop, Option.map_none']

theorem pollImage_none_of_max_eq {img : TaggedImage} {tags : List String}
    (h : maxSatisfying tags img.tag = some img.tag) :
    pollImageForUpdates img tags = none := by
  unfold pollImageForUpdates
  simp only [h]
  simp

theorem pollRun_of_bad_tag {cur : TaggedImage}
    (hp : parseSemver cur.tag = none) :
    ∀ l : List (List String), pollRun cur l = [] := by
  intro l
  induction l with
  | nil => rfl
  | cons tags rest ih =>
    have hnone : pollImageForUpdates cur tags = none := by
      unfold pollImageForUpdates maxSatisfying
      simp only [hp]
    simp only [pollRun, hnone]
    exact ih

theorem pollRun_spec (t0v : Semver) :
    ∀ (l : List (List String)) (cur : TaggedImage) (curv : Semver),
      parseSemver cur.tag = some curv → caretSatisfies t0v curv = true →
      (∀ e ∈ pollRun cur l, ∃ ev, parseSemver e.tag = some ev ∧
        caretSatisfies t0v ev = true) ∧
      List.Chain' (fun a b => semverStrLe a.tag b.tag = true)
        (cur :: pollRun cur l) := by
  intro l
  induction l with
  | nil =>
    intro cur curv _ _
    exact ⟨by simp [pollRun], by simp [pollRun]⟩
  | cons tags rest ih =>
    intro cur curv hpcur hcaret
    rcases hstep : pollImageForUpdates cur tags with _ | i
    · simp only [pollRun, hstep]
      exact ih cur curv hpcur hcaret
    · obtain ⟨tv, iv, hptv, hpiv, -, -, -, hsat, -, -⟩ :=
        pollImage_some_spec hstep
      obtain rfl : tv = curv := by
        rw [hpcur] at hptv; injection hptv with hptv; exact hptv.symm
      have hciv : caretSatisfies t0v iv = true := caretSatisfies_trans hcaret hsat
      obtain ⟨hbound, hchain⟩ := ih i iv hpiv hciv
      simp only [pollRun, hstep]
      constructor
      · intro e he
        rcases List.mem_cons.mp he with rfl | he'
        · exact ⟨iv, hpiv, hciv⟩
        · exact hbound e he'
      · rw [List.chain'_cons]
        refine ⟨?_, hchain⟩
        unfold semverStrLe
        simp only [hpcur, hpiv]
        simp [caretSatisfies_implies_le hsat]

/-- **C1**: for every tracked image, over any run of poll ticks the
sequence of selected tags is non-decreasing under semver precedence, and
every selected tag satisfies the caret range of the image's initial tag
(so a next-major tag, or for a `0.x` initial tag a next-minor tag, is
never selected). -/
theorem c1_run_monotone_and_bounded (img0 : TaggedImage)
    (l : List (List String)) :
    List.Chain' (fun a b => semverStrLe a.tag b.tag = true) (pollRun img0 l) ∧
    ∀ e ∈ pollRun img0 l, tagSatisfiesCaret img0.tag e.tag = true ∧
      semverStrLe img0.tag e.tag = true := by
  rcases hp : parseSemver img0.tag with _ | t0v
  · rw [pollRun_of_bad_tag hp l]
    exact ⟨by simp, by simp⟩
  · obtain ⟨hbound, hchain⟩ :=
      pollRun_spec t0v l img0 t0v hp caretSatisfies_refl
    refine ⟨hchain.tail, ?_⟩
    intro e he
    obtain ⟨ev, hpe, hce⟩ := hbound e he
    constructor
    · unfold tagSatisfiesCaret tagSat
      simp only [hp, hpe]
      exact hce
    · unfold semverStrLe
      simp only [hp, hpe]
      simp [caretSatisfies_implies_le hce]

theorem c1_run_monotone_and_bounded_witness :
    tagSatisfiesCaret "1.2.3" "1.4.0" = true ∧
      semverStrLe "1.2.3" "1.4.0" = true :=
  (c1_run_monotone_and_bounded ⟨"reg", "cat-image", "1.2.3"⟩
    [["1.4.0", "1.0.0"]]).2 ⟨"reg", "cat-image", "1.4.0"⟩ (by decide)

/-- **C2**: on each poll tick the poller selects the greatest tag in the
returned list that satisfies `^current`; it emits nothing (and keeps the
current tag) when no tag satisfies the range or the selected tag equals
the current one, and otherwise emits the updated triple and adopts its
tag as the accumulator for subsequent ticks. -/
theorem c2_tick_selects_max_in_caret (pollableImage : TaggedImage)
    (tags : List String) :
    (∀ img', pollImageForUpdates pollableImage tags = some img' →
      img'.repoUrl = pollableImage.repoUrl ∧
      img'.image = pollableImage.image ∧
      img'.tag ∈ tags ∧
      tagSatisfiesCaret pollableImage.tag img'.tag = true ∧
      img'.tag ≠ pollableImage.tag ∧
      (∀ w ∈ tags, tagSatisfiesCaret pollableImage.tag w = true →
        semverStrLe w img'.tag = true) ∧
      pollStep pollableImage tags = (some img', img')) ∧
    (pollImageForUpdates pollableImage tags = none →
      pollStep pollableImage tags = (none, pollableImage) ∧
      ((∀ w ∈ tags, tagSatisfiesCaret pollableImage.tag w = false) ∨
        maxSatisfying tags pollableImage.tag = some pollableImage.tag)) ∧
    ((∀ w ∈ tags, tagSatisfiesCaret pollableImage.tag w = false) →
      pollImageForUpdates pollableImage tags = none) ∧
    (maxSatisfying tags pollableImage.tag = some pollableImage.tag →
      pollImageForUpdates pollableImage tags = none) := by
  refine ⟨?_, ?_, pollImage_none_of_nosat, pollImage_none_of_max_eq⟩
  · intro img' h
    obtain ⟨tv, iv, hptv, hpiv, hrepo, himg, hmem, hsat, hne, hmax⟩ :=
      pollImage_some_spec h
    refine ⟨hrepo, himg, hmem, ?_, hne, ?_, ?_⟩
    · unfold tagSatisfiesCaret tagSat
      simp only [hptv, hpiv]
      exact hsat
    · intro w hw hws
      unfold tagSatisfiesCaret at hws
      rw [hptv] at hws
      unfold tagSat at hws
      rcases hpw : parseSemver w with _ | wv
      · rw [hpw] at hws; simp at hws
      · rw [hpw] at hws
        have hle := hmax w hw wv hpw hws
        unfold semverStrLe
        simp only [hpw, hpiv]
        simp [hle]
    · unfold pollStep
      rw [h]
  · intro h
    refine ⟨?_, pollImage_none_spec h⟩
    unfold pollStep
    rw [h]

theorem c2_tick_selects_max_in_caret_witness :
    pollStep ⟨"reg", "dog-image", "10.0.0"⟩ ["10.0.1", "9.0.0", "11.0.0"] =
      (some ⟨"reg", "dog-image", "10.0.1"⟩, ⟨"reg", "dog-image", "10.0.1"⟩) ∧
    tagSatisfiesCaret "10.0.0" "10.0.1" = true ∧
    semverStrLe "11.0.0" "10.0.1" = false := by
  have h := (c2_tick_selects_max_in_caret ⟨"reg", "dog-image", "10.0.0"⟩
      ["10.0.1", "9.0.0", "11.0.0"]).1
    ⟨"reg", "dog-image", "10.0.1"⟩ (by decide)
  exact ⟨h.2.2.2.2.2.2, h.2.2.2.1, by decide⟩

/-- Image identity: images are equal "by `(registry, image)`". -/
def imageKey (i : TaggedImage) : String × String := (i.repoUrl, i.image)

/-- The `scan` aggregator in `pollImagesForUpdate` (`src/pollImagesForUpdate.ts`):
filter out the entry matching the changed image's `(repoUrl, image)`, then
push the changed image. -/
def scanImages (pollableImages : List TaggedImage)
    (changedImage : TaggedImage) : List TaggedImage :=
  (pollableImages.filter (fun pollableImage =>
    pollableImage.repoUrl != changedImage.repoUrl ||
      pollableImage.image != changedImage.image)) ++ [changedImage]

theorem scanImages_pred_iff (p changed : TaggedImage) :
    (p.repoUrl != changed.repoUrl || p.image != changed.image) = true ↔
      imageKey p ≠ imageKey changed := by
  unfold imageKey
  simp only [Bool.or_eq_true, bne_iff_ne, ne_eq, Prod.mk.injEq, not_and_or]

/-- **C5** counterexample: after a change to the first of two tracked
images, the snapshot produced by the aggregator lists the changed entry
last, so the snapshot's order differs from the initial tracked set's order
(the claim asserts "the same order as the initial tracked set"). -/
theorem c5_counterexample :
    scanImages [⟨"reg", "cat-image", "1.0.0"⟩, ⟨"reg", "dog-image", "1.0.0"⟩]
        ⟨"reg", "cat-image", "1.0.1"⟩ =
      [⟨"reg", "dog-image", "1.0.0"⟩, ⟨"reg", "cat-image", "1.0.1"⟩] ∧
    (scanImages [⟨"reg", "cat-image", "1.0.0"⟩, ⟨"reg", "dog-image", "1.0.0"⟩]
        ⟨"reg", "cat-image", "1.0.1"⟩).map imageKey ≠
      [⟨"reg", "cat-image", "1.0.0"⟩,
        ⟨"reg", "dog-image", "1.0.0"⟩].map imageKey := by
  constructor
  · rfl
  · decide

/-- **C5** (amended): after a per-image change, the aggregator's snapshot
keeps the same length and the same `(registry, image)` identities as the
previous snapshot (up to permutation, not order: the substituted entry
moves to the end), and every entry is either the changed triple or an
unchanged entry of the previous snapshot with a different identity. -/
theorem c5_snapshot_substitution (prev : List TaggedImage)
    (changed : TaggedImage) (hnodup : (prev.map imageKey).Nodup)
    (hmem : imageKey changed ∈ prev.map imageKey) :
    (scanImages prev changed).length = prev.length ∧
    ((scanImages prev changed).map imageKey).Perm (prev.map imageKey) ∧
    (scanImages prev changed).getLast? = some changed ∧
    ∀ p ∈ scanImages prev changed,
      p = changed ∨ (p ∈ prev ∧ imageKey p ≠ imageKey changed) := by
  induction prev with
  | nil => simp at hmem
  | cons q rest ih =>
    rw [List.map_cons, List.nodup_cons] at hnodup
    obtain ⟨hqnotin, hnodup'⟩ := hnodup
    by_cases hq : imageKey q = imageKey changed
    · -- the head is the replaced entry; the tail is kept verbatim
      have hqpred : (q.repoUrl != changed.repoUrl ||
          q.image != changed.image) = false := by
        rw [← Bool.not_eq_true, scanImages_pred_iff]
        simp [hq]
      have hkeep : rest.filter (fun p =>
          p.repoUrl != changed.repoUrl || p.image != changed.image) = rest := by
        rw [List.filter_eq_self]
        intro p hp
        rw [scanImages_pred_iff]
        intro hkey
        apply hqnotin
        rw [hq, ← hkey]
        exact List.mem_map_of_mem _ hp
      have hunfold : scanImages (q :: rest) changed = rest ++ [changed] := by
        unfold scanImages
        rw [List.filter_cons, hqpred]
        simp [hkeep]
      rw [hunfold]
      refine ⟨by simp, ?_, by simp, ?_⟩
      · rw [List.map_append, List.map_cons, List.map_cons, List.map_nil, hq]
        exact List.perm_append_singleton _ _
      · intro p hp
        rcases List.mem_append.mp hp with hp' | hp'
        · right
          refine ⟨List.mem_cons_of_mem _ hp', ?_⟩
          intro hkey
          apply hqnotin
          rw [hq, ← hkey]
          exact List.mem_map_of_mem _ hp'
        · left; simpa using hp'
    · -- the head is untouched; recurse on the tail
      have hqpred : (q.repoUrl != changed.repoUrl ||
          q.image != changed.image) = true :=
        (scanImages_pred_iff q changed).mpr hq
      have hmem' : imageKey changed ∈ rest.map imageKey := by
        rcases List.mem_cons.mp hmem with h | h
        · exact absurd h.symm hq
        · exact h
      obtain ⟨hlen, hperm, hlast, hall⟩ := ih hnodup' hmem'
      have hunfold : scanImages (q :: rest) changed =
          q :: scanImages rest changed := by
        unfold scanImages
        rw [List.filter_cons, hqpred]
        simp
      rw [hunfold]
      refine ⟨by simp [hlen], ?_, ?_, ?_⟩
      · rw [List.map_cons, List.map_cons]
        exact hperm.cons (imageKey q)
      · rcases hscan : scanImages rest changed with _ | ⟨x, xs⟩
        · rw [hscan] at hlast; simp at hlast
        · rw [hscan] at hlast
          rw [List.getLast?_cons_cons]
          exact hlast
      · intro p hp
        rcases List.mem_cons.mp hp with rfl | hp'
        · right; exact ⟨List.mem_cons_self _ _, hq⟩
        · rcases hall p hp' with h | ⟨h1, h2⟩
          · left; exact h
          · right; exact ⟨List.mem_cons_of_mem _ h1, h2⟩

theorem c5_snapshot_substitution_witness :
    (scanImages [⟨"reg", "cat-image", "1.0.0"⟩, ⟨"reg", "dog-image", "1.0.0"⟩]
        ⟨"reg", "dog-image", "1.0.1"⟩).length = 2 ∧
    (scanImages [⟨"reg", "cat-image", "1.0.0"⟩, ⟨"reg", "dog-image", "1.0.0"⟩]
        ⟨"reg", "dog-image", "1.0.1"⟩).getLast? =
      some ⟨"reg", "dog-image", "1.0.1"⟩ := by
  have h := c5_snapshot_substitution
    [⟨"reg", "cat-image", "1.0.0"⟩, ⟨"reg", "dog-image", "1.0.0"⟩]
    ⟨"reg", "dog-image", "1.0.1"⟩ (by decide) (by decide)
  exact ⟨h.1, h.2.2.1⟩

/-- JS `String.prototype.split` restricted to a single-character separator
(`n` separators give `n + 1` fields, empty fields included). -/
def jsSplit (sep : Char) (s : String) : List String :=
  (splitOnChar sep s.data).map (fun cs => (⟨cs⟩ : String))

/-- The image-string destructuring shared by `getPollableImages` and
`mergePollableImagesWithDockerComposeConfig` (`src/index.ts`): JS
`const [repoUrl, imageAndTag] = imageStr.split("/")` followed by
`const [image, tag] = imageAndTag.split(":")` keeps only the first two
fields of each split and rejects falsy (empty or missing) components. -/
def parseImageString (imageStr : String) : Option TaggedImage :=
  match jsSplit '/' imageStr with
  | repoUrl :: imageAndTag :: _ =>
    if repoUrl = "" || imageAndTag = "" then none
    else
      match jsSplit ':' imageAndTag with
      | image :: tag :: _ =>
        if image = "" || tag = "" then none
        else some ⟨repoUrl, image, tag⟩
      | _ => none
  | _ => none

/-- The canonical image string `registry/image:tag`. -/
def mkImageStr (repoUrl image tag : String) : String :=
  repoUrl ++ "/" ++ image ++ ":" ++ tag

/-- A service descriptor: the `image` field the code reads and rewrites,
plus the remaining fields, which the code never inspects (held abstract
as an association list and spread unchanged by `{...service}`). -/
structure Service where
  image : String
  extra : List (String × String)
deriving DecidableEq, Repr

/-- The section of the docker-compose config friendship-blaster cares
about: the mapping from service label to service descriptor. -/
structure DockerComposeConfig where
  services : List (String × Service)
deriving DecidableEq, Repr

/-- `getPollableImages` (`src/index.ts`): the tracked references extracted
from the parsed docker-compose config — every service whose image string
destructures as `registry/image:tag` and whose `registry/image` or bare
`image` is in the configured image set. -/
def getPollableImages (dockerComposeConfig : DockerComposeConfig)
    (pollSpec : List String) : List TaggedImage :=
  dockerComposeConfig.services.filterMap (fun ls =>
    match parseImageString ls.2.image with
    | none => none
    | some ti =>
      if pollSpec.contains (ti.repoUrl ++ "/" ++ ti.image) ||
          pollSpec.contains ti.image
      then some ti else none)

/-- `mergePollableImagesWithDockerComposeConfig` (`src/index.ts`): a copy
of the config in which each service whose image string destructures and
matches a tracked reference by `(repoUrl, image)` has its `image` field
rewritten to carry the tracked reference's tag; everything else is spread
through unchanged. -/
def mergePollableImagesWithDockerComposeConfig
    (pollableImages : List TaggedImage)
    (dockerComposeConfig : DockerComposeConfig) : DockerComposeConfig :=
  ⟨dockerComposeConfig.services.map (fun ls =>
    (ls.1,
      match parseImageString ls.2.image with
      | none => ls.2
      | some ti =>
        match pollableImages.find? (fun pollableImage =>
            pollableImage.image == ti.image &&
              pollableImage.repoUrl == ti.repoUrl) with
        | none => ls.2
        | some matchingImage =>
          { ls.2 with image := mkImageStr ti.repoUrl ti.image matchingImage.tag }))⟩

example : parseImageString "reg:7420/cat-image:10.0.0" =
    some ⟨"reg:7420", "cat-image", "10.0.0"⟩ := by decide
example : parseImageString "redis:5.0-alpine" = none := by decide
example : parseImageString "reg/app" = none := by decide
example : parseImageString "reg/app:1.0.0/extra" =
    some ⟨"reg", "app", "1.0.0"⟩ := by decide

theorem mem_getPollableImages_iff {M : DockerComposeConfig}
    {pollSpec : List String} {t : TaggedImage} :
    t ∈ getPollableImages M pollSpec ↔
      ∃ ls ∈ M.services, parseImageString ls.2.image = some t ∧
        (pollSpec.contains (t.repoUrl ++ "/" ++ t.image) ||
          pollSpec.contains t.image) = true := by
  unfold getPollableImages
  rw [List.mem_filterMap]
  constructor
  · rintro ⟨ls, hls, hf⟩
    rcases hp : parseImageString ls.2.image with _ | ti
    · simp only [hp] at hf
      exact Option.noConfusion hf
    · simp only [hp] at hf
      by_cases hc : (pollSpec.contains (ti.repoUrl ++ "/" ++ ti.image) ||
          pollSpec.contains ti.image) = true
      · rw [if_pos hc] at hf
        injection hf with hf
        subst hf
        exact ⟨ls, hls, hp, hc⟩
      · rw [if_neg hc] at hf
        exact Option.noConfusion hf
  · rintro ⟨ls, hls, hp, hc⟩
    refine ⟨ls, hls, ?_⟩
    simp only [hp, hc, if_pos]

/-- **C3** counterexample: for a manifest whose image string carries a
spurious third `/`-segment, the JS destructuring drops the extra segment,
so merging the manifest with its own extracted references rewrites the
image string and the round trip is not the identity. -/
theorem c3_counterexample :
    mergePollableImagesWithDockerComposeConfig
        (getPollableImages ⟨[("svc", ⟨"reg/app:1.0.0/extra", []⟩)]⟩ ["app"])
        ⟨[("svc", ⟨"reg/app:1.0.0/extra", []⟩)]⟩ =
      ⟨[("svc", ⟨"reg/app:1.0.0", []⟩)]⟩ ∧
    mergePollableImagesWithDockerComposeConfig
        (getPollableImages ⟨[("svc", ⟨"reg/app:1.0.0/extra", []⟩)]⟩ ["app"])
        ⟨[("svc", ⟨"reg/app:1.0.0/extra", []⟩)]⟩ ≠
      ⟨[("svc", ⟨"reg/app:1.0.0/extra", []⟩)]⟩ := by
  constructor
  · rfl
  · decide

/-- **C3** (amended): merging a manifest with its own extracted tracked
references is the identity, provided every service image string that
destructures is in canonical `registry/image:tag` form (the string
rebuilds verbatim) and no two tracked services share a `(registry,
image)` identity with different tags. -/
theorem c3_merge_extract_identity (M : DockerComposeConfig)
    (pollSpec : List String)
    (hcanon : ∀ ls ∈ M.services, ∀ t, parseImageString ls.2.image = some t →
      ls.2.image = mkImageStr t.repoUrl t.image t.tag)
    (huniq : ∀ t₁ ∈ getPollableImages M pollSpec,
      ∀ t₂ ∈ getPollableImages M pollSpec, imageKey t₁ = imageKey t₂ →
        t₁ = t₂) :
    mergePollableImagesWithDockerComposeConfig
      (getPollableImages M pollSpec) M = M := by
  obtain ⟨services⟩ := M
  unfold mergePollableImagesWithDockerComposeConfig
  congr 1
  conv_rhs => rw [← List.map_id services]
  apply List.map_congr_left
  intro ls hls
  simp only [id]
  rcases hp : parseImageString ls.2.image with _ | ti
  · simp only [hp]
  · simp only [hp]
    rcases hf : (getPollableImages ⟨services⟩ pollSpec).find?
        (fun pollableImage => pollableImage.image == ti.image &&
          pollableImage.repoUrl == ti.repoUrl) with _ | m
    · simp only [hf]
    · simp only [hf]
      have hmmem := List.mem_of_find?_eq_some hf
      have hmpred := List.find?_some hf
      rw [Bool.and_eq_true, beq_iff_eq, beq_iff_eq] at hmpred
      obtain ⟨hmi, hmr⟩ := hmpred
      have hcheck : ((pollSpec.contains (ti.repoUrl ++ "/" ++ ti.image) ||
          pollSpec.contains ti.image)) = true := by
        obtain ⟨ls', hls', hp', hc'⟩ := mem_getPollableImages_iff.mp hmmem
        rw [hmr, hmi] at hc'
        exact hc'
      have htimem : ti ∈ getPollableImages ⟨services⟩ pollSpec :=
        mem_getPollableImages_iff.mpr ⟨ls, hls, hp, hcheck⟩
      have hm : m = ti := huniq m hmmem ti htimem (by
        unfold imageKey
        rw [hmi, hmr])
      subst hm
      rw [← hcanon ls hls m hp]

theorem c3_merge_extract_identity_witness :
    mergePollableImagesWithDockerComposeConfig
      (getPollableImages
        ⟨[("cat", ⟨"reg:7420/cat-image:10.0.0", [("restart", "always")]⟩),
          ("redis", ⟨"redis:5.0-alpine", []⟩)]⟩ ["cat-image"])
      ⟨[("cat", ⟨"reg:7420/cat-image:10.0.0", [("restart", "always")]⟩),
        ("redis", ⟨"redis:5.0-alpine", []⟩)]⟩ =
    ⟨[("cat", ⟨"reg:7420/cat-image:10.0.0", [("restart", "always")]⟩),
      ("redis", ⟨"redis:5.0-alpine", []⟩)]⟩ :=
  c3_merge_extract_identity _ _ (by decide) (by decide)

/-- **C8**: `merge` rewrites only the `image` field, and only of services
whose image string destructures as `registry/image:tag` and matches a
tracked reference by `(registry, image)` (the first such reference); the
label, the non-`image` fields, and every non-matching or non-parsing
service descriptor pass through verbatim, in order. -/
theorem c8_merge_frame (pollableImages : List TaggedImage)
    (M : DockerComposeConfig) :
    List.Forall₂ (fun (orig new : String × Service) =>
      new.1 = orig.1 ∧ new.2.extra = orig.2.extra ∧
      (parseImageString orig.2.image = none → new = orig) ∧
      ∀ t, parseImageString orig.2.image = some t →
        (pollableImages.find? (fun p =>
            p.image == t.image && p.repoUrl == t.repoUrl) = none →
          new = orig) ∧
        ∀ m, pollableImages.find? (fun p =>
            p.image == t.image && p.repoUrl == t.repoUrl) = some m →
          m ∈ pollableImages ∧ imageKey m = (t.repoUrl, t.image) ∧
          new.2 = { orig.2 with image := mkImageStr t.repoUrl t.image m.tag })
      M.services
      (mergePollableImagesWithDockerComposeConfig pollableImages M).services := by
  obtain ⟨services⟩ := M
  unfold mergePollableImagesWithDockerComposeConfig
  simp only
  induction services with
  | nil => exact List.Forall₂.nil
  | cons ls rest ih =>
    rw [List.map_cons]
    refine List.Forall₂.cons ?_ ih
    refine ⟨rfl, ?_, ?_, ?_⟩
    · rcases hp : parseImageString ls.2.image with _ | ti
      · simp only [hp]
      · simp only [hp]
        rcases hf : pollableImages.find? (fun p =>
            p.image == ti.image && p.repoUrl == ti.repoUrl) with _ | m
        · simp only [hf]
        · simp only [hf]
    · intro hp
      simp only [hp]
    · intro t hp
      constructor
      · intro hf
        simp only [hp, hf]
      · intro m hf
        have hpred := List.find?_some hf
        rw [Bool.and_eq_true, beq_iff_eq, beq_iff_eq] at hpred
        refine ⟨List.mem_of_find?_eq_some hf, ?_, ?_⟩
        · unfold imageKey
          rw [hpred.1, hpred.2]
        · simp only [hp, hf]

theorem c8_merge_frame_witness :
    (mergePollableImagesWithDockerComposeConfig [⟨"reg", "app", "2.0.0"⟩]
      ⟨[("svc", ⟨"reg/app:1.0.0", [("restart", "always")]⟩)]⟩).services =
      [("svc", { image := "reg/app:2.0.0",
                 extra := [("restart", "always")] })] ∧
    ({ image := "reg/app:2.0.0",
       extra := [("restart", "always")] } : Service).extra =
      ({ image := "reg/app:1.0.0",
         extra := [("restart", "always")] } : Service).extra := by
  have hms : (mergePollableImagesWithDockerComposeConfig [⟨"reg", "app", "2.0.0"⟩]
      ⟨[("svc", ⟨"reg/app:1.0.0", [("restart", "always")]⟩)]⟩).services =
      [("svc", { image := "reg/app:2.0.0",
                 extra := [("restart", "always")] })] := by decide
  have h := c8_merge_frame [⟨"reg", "app", "2.0.0"⟩]
    ⟨[("svc", ⟨"reg/app:1.0.0", [("restart", "always")]⟩)]⟩
  rw [hms] at h
  obtain ⟨hR, -⟩ := List.forall₂_cons.mp h
  exact ⟨hms, hR.2.1⟩

/-- The reconciliation inside `getLatestPollableImages` (`src/index.ts`):
for each initial reference, take the tag of the first version-store entry
with the same `(repoUrl, image)`, if any. -/
def reconcileImages (latestImages : List TaggedImage)
    (pollableImages : List TaggedImage) : List TaggedImage :=
  pollableImages.map (fun pollableImage =>
    match latestImages.find? (fun latestImage =>
        latestImage.repoUrl == pollableImage.repoUrl &&
          latestImage.image == pollableImage.image) with
    | some matching => { pollableImage with tag := matching.tag }
    | none => pollableImage)

/-- `getLatestPollableImages` (`src/index.ts`): when the version-store
file does not exist (`store = none`) the initial references are returned
unchanged; otherwise each initial reference is reconciled against the
loaded entries. -/
def getLatestPollableImages (store : Option (List TaggedImage))
    (pollableImages : List TaggedImage) : List TaggedImage :=
  match store with
  | none => pollableImages
  | some latestImages => reconcileImages latestImages pollableImages

/-- **C4**: reconciliation replaces the tag of an initial reference
exactly when a loaded entry shares its `(registry, image)` (taking the
first such entry's tag), keeps the reference unchanged otherwise, and
never changes the length or the `(registry, image)` identities of the
initial list; an absent version store yields the initial references (the
manifest tags) unchanged. -/
theorem c4_reconcile_spec (pollableImages : List TaggedImage)
    (latestImages : List TaggedImage) :
    getLatestPollableImages none pollableImages = pollableImages ∧
    (getLatestPollableImages (some latestImages) pollableImages).length =
      pollableImages.length ∧
    List.Forall₂ (fun (p q : TaggedImage) =>
      q.repoUrl = p.repoUrl ∧ q.image = p.image ∧
      ((∃ m ∈ latestImages, m.repoUrl = p.repoUrl ∧ m.image = p.image) →
        ∃ m ∈ latestImages, m.repoUrl = p.repoUrl ∧ m.image = p.image ∧
          q = { p with tag := m.tag }) ∧
      ((¬ ∃ m ∈ latestImages, m.repoUrl = p.repoUrl ∧ m.image = p.image) →
        q = p))
      pollableImages (getLatestPollableImages (some latestImages) pollableImages) := by
  refine ⟨rfl, by simp [getLatestPollableImages, reconcileImages], ?_⟩
  simp only [getLatestPollableImages, reconcileImages]
  induction pollableImages with
  | nil => exact List.Forall₂.nil
  | cons p rest ih =>
    rw [List.map_cons]
    refine List.Forall₂.cons ?_ ih
    rcases hf : latestImages.find? (fun latestImage =>
        latestImage.repoUrl == p.repoUrl && latestImage.image == p.image)
      with _ | m
    · rw [hf]
      have hnone : ¬ ∃ m ∈ latestImages, m.repoUrl = p.repoUrl ∧
          m.image = p.image := by
        rintro ⟨m, hm, hr, hi⟩
        have := List.find?_eq_none.mp hf m hm
        rw [Bool.and_eq_true, beq_iff_eq, beq_iff_eq] at this
        exact this ⟨hr, hi⟩
      exact ⟨rfl, rfl, fun h => absurd h hnone, fun _ => rfl⟩
    · rw [hf]
      have hpred := List.find?_some hf
      rw [Bool.and_eq_true, beq_iff_eq, beq_iff_eq] at hpred
      refine ⟨rfl, rfl, ?_, ?_⟩
      · intro _
        exact ⟨m, List.mem_of_find?_eq_some hf, hpred.1, hpred.2, rfl⟩
      · intro h
        exact absurd ⟨m, List.mem_of_find?_eq_some hf, hpred.1, hpred.2⟩ h

theorem c4_reconcile_spec_witness :
    getLatestPollableImages none
      [⟨"reg", "cat-image", "10.0.0"⟩, ⟨"reg", "dog-image", "10.0.0"⟩] =
      [⟨"reg", "cat-image", "10.0.0"⟩, ⟨"reg", "dog-image", "10.0.0"⟩] ∧
    ∃ m ∈ [(⟨"reg", "dog-image", "10.0.1"⟩ : TaggedImage)],
      m.repoUrl = "reg" ∧ m.image = "dog-image" ∧
      m.tag = "10.0.1" := by
  have h := c4_reconcile_spec
    [⟨"reg", "cat-image", "10.0.0"⟩, ⟨"reg", "dog-image", "10.0.0"⟩]
    [⟨"reg", "dog-image", "10.0.1"⟩]
  refine ⟨h.1, ?_⟩
  obtain ⟨-, hfa⟩ := List.forall₂_cons.mp h.2.2
  obtain ⟨hR, -⟩ := List.forall₂_cons.mp hfa
  obtain ⟨m, hm, hr, hi, hq⟩ := hR.2.2.1 ⟨⟨"reg", "dog-image", "10.0.1"⟩,
    by simp, rfl, rfl⟩
  exact ⟨m, hm, hr, hi, by
    have : m = ⟨"reg", "dog-image", "10.0.1"⟩ := by simpa using hm
    rw [this]⟩

/-- A parsed YAML scalar or collection, as `YAML.parse` hands it to
`assertDockerComposeConfig` (`src/docker.ts`). -/
inductive YamlValue
  | nul
  | bool (b : Bool)
  | num (n : Int)
  | str (s : String)
  | seq (items : List YamlValue)
  | map (entries : List (String × YamlValue))

/-- JS truthiness of a parsed YAML value (`null`, `false`, `0` and `""`
are falsy; every object and array, including empty ones, is truthy). -/
def YamlValue.truthy : YamlValue → Bool
  | .nul => false
  | .bool b => b
  | .num n => n != 0
  | .str s => s != ""
  | .seq _ => true
  | .map _ => true

/-- JS `typeof x === "object"` (`typeof null` is `"object"` too). -/
def YamlValue.isObjectType : YamlValue → Bool
  | .nul => true
  | .seq _ => true
  | .map _ => true
  | _ => false

/-- JS property read `x.prop` (`none` = `undefined`): only objects carry
properties; array index properties and string methods are not modelled
because the code only reads the named properties `services` and `image`. -/
def YamlValue.getProp : YamlValue → String → Option YamlValue
  | .map entries, key => entries.lookup key
  | _, _ => none

/-- JS `Object.values`: own enumerable values of an object, the elements
of an array, the characters of a string and nothing for primitives. -/
def YamlValue.objectValues : YamlValue → List YamlValue
  | .map entries => entries.map Prod.snd
  | .seq items => items
  | .str s => s.data.map (fun c => .str (String.singleton c))
  | _ => []

/-- One iteration of the service check in `assertDockerComposeConfig`:
non-objects throw, a `null` service throws a `TypeError` on the property
read, and a falsy `image` property throws. `none` means no exception. -/
def checkService (service : YamlValue) : Option String :=
  if !service.isObjectType then
    some "Invalid service found in docker-compose.yml"
  else
    match service with
    | .nul => some "TypeError: cannot read image of null"
    | _ =>
      match service.getProp "image" with
      | none => some "Invalid service image found in docker-compose.yml"
      | some image =>
        if !image.truthy then
          some "Invalid service image found in docker-compose.yml"
        else none

def checkServices : List YamlValue → Option String
  | [] => none
  | service :: rest =>
    match checkService service with
    | some e => some e
    | none => checkServices rest

/-- `assertDockerComposeConfig` (`src/docker.ts`): the thrown error
message, or `none` when the parsed value is accepted. -/
def assertDockerComposeConfig (thing : YamlValue) : Option String :=
  if !thing.isObjectType then some "Invalid docker-compose.yml"
  else
    match thing.getProp "services" with
    | none => some "Invalid docker-compose.yml: did not contain services"
    | some services =>
      if !services.truthy then
        some "Invalid docker-compose.yml: did not contain services"
      else checkServices services.objectValues

/-- A service value the assertion accepts: an object (in the JS sense,
`null` excluded) with a truthy `image` property. -/
def serviceOk (service : YamlValue) : Prop :=
  service.isObjectType = true ∧ service ≠ .nul ∧
    ∃ image, service.getProp "image" = some image ∧ image.truthy = true

/-- **C7** counterexample: a manifest whose `services` mapping is empty is
accepted by `assertDockerComposeConfig` (an empty JS object is truthy and
the per-service loop is vacuous), while the claim says startup fails with
`InvalidManifest` on empty services. -/
theorem c7_counterexample :
    assertDockerComposeConfig (.map [("services", .map [])]) = none := rfl

theorem checkService_none_iff {service : YamlValue} :
    checkService service = none ↔ serviceOk service := by
  unfold checkService serviceOk
  rcases service with _ | b | n | s | items | entries <;>
    simp only [YamlValue.isObjectType, Bool.not_true, Bool.not_false,
      if_true, if_false]
  · simp
  · simp
  · simp
  · simp
  · rcases hP : (YamlValue.seq items).getProp "image" with _ | image
    · simp [hP]
    · by_cases ht : image.truthy = true
      · simp [hP, ht]
      · simp only [Bool.not_eq_true] at ht
        simp [hP, ht]
  · rcases hP : (YamlValue.map entries).getProp "image" with _ | image
    · simp [hP]
    · by_cases ht : image.truthy = true
      · simp [hP, ht]
      · simp only [Bool.not_eq_true] at ht
        simp [hP, ht]

theorem checkServices_none_iff {services : List YamlValue} :
    checkServices services = none ↔ ∀ s ∈ services, serviceOk s := by
  induction services with
  | nil => simp [checkServices]
  | cons s rest ih =>
    unfold checkServices
    rcases hc : checkService s with _ | e
    · rw [ih]
      have hok := checkService_none_iff.mp hc
      simp [hok]
    · have hnotok : ¬ serviceOk s := by
        intro hok
        rw [← checkService_none_iff] at hok
        rw [hc] at hok
        exact Option.noConfusion hok
      simp [hnotok]

/-- **C7** (amended): `assertDockerComposeConfig` accepts exactly the
parsed values that are JS objects carrying a truthy `services` value all
of whose `Object.values` are non-null objects with a truthy `image`
property.  In particular an empty `services` mapping is accepted
(vacuously), and a manifest whose every service has a non-empty `image`
string is accepted; it fails when `services` is absent or null, or some
service lacks a truthy `image`. -/
theorem c7_assert_accepts_iff (thing : YamlValue) :
    assertDockerComposeConfig thing = none ↔
      thing.isObjectType = true ∧
      ∃ services, thing.getProp "services" = some services ∧
        services.truthy = true ∧
        ∀ s ∈ services.objectValues, serviceOk s := by
  unfold assertDockerComposeConfig
  by_cases hobj : thing.isObjectType = true
  · rcases hP : thing.getProp "services" with _ | services
    · simp [hobj, hP]
    · by_cases ht : services.truthy = true
      · simp [hobj, hP, ht, checkServices_none_iff]
      · simp only [Bool.not_eq_true] at ht
        simp [hobj, hP, ht]
  · simp only [Bool.not_eq_true] at hobj
    simp [hobj]

theorem c7_assert_accepts_iff_witness :
    assertDockerComposeConfig
      (.map [("services",
        .map [("cat", .map [("image", .str "reg:7420/cat-image:10.0.0")])])]) =
      none :=
  (c7_assert_accepts_iff _).mpr
    ⟨rfl, .map [("cat", .map [("image", .str "reg:7420/cat-image:10.0.0")])],
      rfl, rfl, by
        intro s hs
        simp only [YamlValue.objectValues, List.map_cons, List.map_nil,
          List.mem_singleton] at hs
        subst hs
        exact ⟨rfl, by simp, .str "reg:7420/cat-image:10.0.0", rfl, rfl⟩⟩

/-- Normalise a path's segments: drop empty and `.` segments, let `..`
pop the previous segment (at the root, `..` is dropped), as node's
`path.resolve` does for absolute paths. -/
def normalizeSegs : List String → List String → List String
  | [], acc => acc.reverse
  | "" :: rest, acc => normalizeSegs rest acc
  | "." :: rest, acc => normalizeSegs rest acc
  | ".." :: rest, acc => normalizeSegs rest (acc.drop 1)
  | seg :: rest, acc => normalizeSegs rest (seg :: acc)

/-- node `path.resolve(cwd, p)` as a normalised absolute segment list:
an absolute `p` (leading `/`) stands alone, a relative `p` is appended to
the working directory. -/
def resolveAbs (cwd p : String) : List String :=
  match p.data with
  | '/' :: _ => normalizeSegs (jsSplit '/' p) []
  | _ => normalizeSegs (jsSplit '/' cwd ++ jsSplit '/' p) []

/-- Drop the longest shared leading run of two segment lists. -/
def dropSharedLead : List String → List String → List String × List String
  | a :: as, b :: bs =>
    if a = b then dropSharedLead as bs else (a :: as, b :: bs)
  | as, bs => (as, bs)

/-- node `path.relative(from, to)` on resolved absolute segment lists:
one `..` per remaining `from` segment, then the remaining `to` segments. -/
def nodeRelative (cwd fromPath toPath : String) : String :=
  let p := dropSharedLead (resolveAbs cwd fromPath) (resolveAbs cwd toPath)
  String.intercalate "/" (p.1.map (fun _ => "..") ++ p.2)

/-- JS `String.prototype.startsWith("../")` on the relative path. -/
def startsWithParentHop (s : String) : Bool :=
  match s.data with
  | '.' :: '.' :: '/' :: _ => true
  | _ => false

/-- `isSubDirectory` (`src/config.ts`): the child is taken to be inside
the reference directory when the relative path does not start with
`"../"`. -/
def isSubDirectory (cwd referencePath childPath : String) : Bool :=
  !startsWithParentHop (nodeRelative cwd referencePath childPath)

/-- The credentials validation in `getConfigFromArgv` (`src/config.ts`):
each raw `--credentials` argument (the whole `registry:path` string) is
checked with `isSubDirectory` against the working directory; the first
failing argument throws. `none` means every argument was accepted. -/
def validateCredentialArgs (cwd directory : String)
    (credentials : List String) : Option String :=
  match credentials.find? (fun oneCredential =>
      !isSubDirectory cwd directory oneCredential) with
  | some oneCredential =>
    some (oneCredential ++ " must be within the directory " ++ directory)
  | none => none

/-- The credentials-file path `getAuthConfig` (`src/config.ts`) later
reads: the substring after the last `:` of the argument. -/
def credentialFilePath (credentials : String) : Option String :=
  match (jsSplit ':' credentials).getLast? with
  | some filePath =>
    if (jsSplit ':' credentials).length < 2 then none else some filePath
  | none => none

/-- The property the spec requires: the credentials file path resolves
inside the working directory. -/
def isInsideDir (cwd directory filePath : String) : Bool :=
  (resolveAbs cwd directory).isPrefixOf (resolveAbs cwd filePath)

example : resolveAbs "/work" "reg.io:/etc/passwd" =
    ["work", "reg.io:", "etc", "passwd"] := by decide
example : resolveAbs "/work" "/etc/passwd" = ["etc", "passwd"] := by decide
example : nodeRelative "/work" "/work" "reg.io:/etc/passwd" =
    "reg.io:/etc/passwd" := by decide

/-- **C9** (code bug): for the credentials argument
`reg.io:/etc/passwd` in working directory `/work`, the validation
accepts the configuration — it applies `isSubDirectory` to the whole
`registry:path` argument, which resolves as a relative path inside the
working directory — although the credentials file path `/etc/passwd`
does not resolve inside the working directory, so the claimed
`ConfigError` never happens.  The validation therefore does not decide
membership of the credential path in the working directory. -/
theorem c9_credentials_validation_bug :
    validateCredentialArgs "/work" "/work" ["reg.io:/etc/passwd"] = none ∧
    credentialFilePath "reg.io:/etc/passwd" = some "/etc/passwd" ∧
    isInsideDir "/work" "/work" "/etc/passwd" = false ∧
    isSubDirectory "/work" "/work" "reg.io:/etc/passwd" = true := by
  refine ⟨?_, ?_, ?_, ?_⟩ <;> decide

/-- Events the `restartVeryUnhealthyContainers` operator (`src/docker.ts`)
reacts to: an unhealthy emission for a label arriving at the `mergeMap`
handler, and the completion of a `docker-compose restart` for a label
(the `finally` block). -/
inductive RestartEvent
  | emit (label : String)
  | complete (label : String)

/-- One step of the handler over the `pendingRestarts` set (the in-flight
labels): an emission for a pending label is dropped (no queueing); an
emission for a non-pending label adds it and starts a restart (the
returned flag); a completion removes the label. -/
def restartStep (pending : List String) : RestartEvent → List String × Bool
  | .emit label =>
    if label ∈ pending then (pending, false) else (label :: pending, true)
  | .complete label => (pending.erase label, false)

/-- The pending set after a sequence of events, starting from `pending`. -/
def restartFold (pending : List String) : List RestartEvent → List String
  | [] => pending
  | e :: rest => restartFold (restartStep pending e).1 rest

theorem restartFold_nodup {pending : List String} (h : pending.Nodup) :
    ∀ events : List RestartEvent, (restartFold pending events).Nodup := by
  intro events
  induction events generalizing pending with
  | nil => exact h
  | cons e rest ih =>
    rcases e with label | label
    · unfold restartFold restartStep
      by_cases hmem : label ∈ pending
      · simp only [hmem, if_pos]
        exact ih h
      · simp only [hmem, if_neg]
        exact ih (List.nodup_cons.mpr ⟨hmem, h⟩)
    · exact ih (List.Nodup.erase _ h)

/-- **C6**: at most one health restart is in flight per label at any
time: starting from no in-flight restarts, after any event sequence each
label occurs at most once in the in-flight set; an emission for a label
whose restart is in flight is dropped outright (state unchanged, no new
restart started); and once the restart completes, a later emission for
that label starts a new one. -/
theorem c6_at_most_one_restart_in_flight :
    (∀ events : List RestartEvent, ∀ label,
      (restartFold [] events).count label ≤ 1) ∧
    (∀ pending : List String, ∀ label, label ∈ pending →
      restartStep pending (.emit label) = (pending, false)) ∧
    (∀ pending : List String, ∀ label, label ∉ pending →
      restartStep pending (.emit label) = (label :: pending, true)) ∧
    (∀ pending : List String, ∀ label, pending.Nodup →
      restartStep ((restartStep pending (.complete label)).1)
        (.emit label) = (label :: pending.erase label, true)) := by
  refine ⟨?_, ?_, ?_, ?_⟩
  · intro events label
    have h := restartFold_nodup List.nodup_nil events
    rw [List.nodup_iff_count_le_one] at h
    exact h label
  · intro pending label hmem
    unfold restartStep
    simp only [hmem, if_pos]
  · intro pending label hmem
    simp only [restartStep]
    rw [if_neg hmem]
  · intro pending label hnodup
    simp only [restartStep]
    have hnot : label ∉ pending.erase label := hnodup.not_mem_erase
    rw [if_neg hnot]

theorem c6_at_most_one_restart_in_flight_witness :
    (restartFold []
      [RestartEvent.emit "cat", RestartEvent.emit "cat",
       RestartEvent.emit "dog"]).count "cat" ≤ 1 ∧
    restartStep ["cat"] (.emit "cat") = (["cat"], false) ∧
    restartStep ["dog"] (.emit "cat") = (["cat", "dog"], true) ∧
    restartStep ((restartStep ["cat"] (.complete "cat")).1) (.emit "cat") =
      (["cat"], true) := by
  refine ⟨c6_at_most_one_restart_in_flight.1 _ "cat",
    c6_at_most_one_restart_in_flight.2.1 ["cat"] "cat" (by decide),
    c6_at_most_one_restart_in_flight.2.2.1 ["dog"] "cat" (by decide), ?_⟩
  have h := c6_at_most_one_restart_in_flight.2.2.2 ["cat"] "cat" (by decide)
  simpa using h

/-- The changed-image computation at the head of `pullChangedImages`
(`src/docker.ts`): keep the images of the new snapshot whose tag differs
from the matching previous entry's tag.  The lookup of the previous entry
is unguarded (`matchingPrev!.tag`): when an image of the new snapshot has
no previous entry with the same `(repoUrl, image)`, the JS filter throws
a `TypeError`, modelled as `none`. -/
def changedImagesOf (prevImages newPollableImages : List TaggedImage) :
    Option (List TaggedImage) :=
  match newPollableImages with
  | [] => some []
  | i :: rest =>
    match prevImages.find? (fun prev =>
        prev.repoUrl == i.repoUrl && prev.image == i.image) with
    | none => none
    | some matchingPrev =>
      (changedImagesOf prevImages rest).map (fun changedRest =>
        if matchingPrev.tag != i.tag then i :: changedRest else changedRest)

/-- `pullChangedImages` (`src/docker.ts`) up to its observable effect:
the list of `registry/image:tag` references it pulls, or `none` when the
changed-image computation throws — which happens before any pull is
issued, so nothing is pulled. -/
def pullChangedImages (prevImages newPollableImages : List TaggedImage) :
    Option (List String) :=
  (changedImagesOf prevImages newPollableImages).map
    (fun changedImages => changedImages.map (fun i =>
      mkImageStr i.repoUrl i.image i.tag))

/-- **C10**: when every image of the new snapshot has a previous entry
with the same `(repoUrl, image)`, the changed-image computation is total
and yields exactly the subset of the new snapshot whose tag differs from
the (first) matching previous entry's; and on an input violating the
precondition — here a new snapshot whose image is absent from the
previous one — the computation throws before any pull is issued. -/
theorem c10_pull_changed_images_guarded :
    (∀ prevImages newPollableImages : List TaggedImage,
      (∀ i ∈ newPollableImages, ∃ p ∈ prevImages,
        p.repoUrl = i.repoUrl ∧ p.image = i.image) →
      changedImagesOf prevImages newPollableImages =
        some (newPollableImages.filter (fun i =>
          match prevImages.find? (fun prev =>
              prev.repoUrl == i.repoUrl && prev.image == i.image) with
          | some matchingPrev => matchingPrev.tag != i.tag
          | none => false))) ∧
    changedImagesOf [] [⟨"reg", "cat-image", "10.0.1"⟩] = none ∧
    pullChangedImages [] [⟨"reg", "cat-image", "10.0.1"⟩] = none := by
  refine ⟨?_, rfl, rfl⟩
  intro prevImages newPollableImages hpre
  induction newPollableImages with
  | nil => rfl
  | cons i rest ih =>
    have hi := hpre i (List.mem_cons_self _ _)
    obtain ⟨p, hp, hr, him⟩ := hi
    have hfind : (prevImages.find? (fun prev =>
        prev.repoUrl == i.repoUrl && prev.image == i.image)).isSome := by
      rw [List.find?_isSome]
      refine ⟨p, hp, ?_⟩
      rw [Bool.and_eq_true, beq_iff_eq, beq_iff_eq]
      exact ⟨hr, him⟩
    rcases hf : prevImages.find? (fun prev =>
        prev.repoUrl == i.repoUrl && prev.image == i.image) with _ | m
    · rw [hf] at hfind; simp at hfind
    · unfold changedImagesOf
      simp only [hf]
      rw [ih (fun j hj => hpre j (List.mem_cons_of_mem _ hj))]
      rw [Option.map_some', List.filter_cons]
      simp only [hf]

theorem c10_pull_changed_images_guarded_witness :
    changedImagesOf
        [⟨"reg", "cat-image", "10.0.0"⟩, ⟨"reg", "dog-image", "10.0.0"⟩]
        [⟨"reg", "cat-image", "10.0.0"⟩, ⟨"reg", "dog-image", "10.0.1"⟩] =
      some [⟨"reg", "dog-image", "10.0.1"⟩] := by
  have h := c10_pull_changed_images_guarded.1
    [⟨"reg", "cat-image", "10.0.0"⟩, ⟨"reg", "dog-image", "10.0.0"⟩]
    [⟨"reg", "cat-image", "10.0.0"⟩, ⟨"reg", "dog-image", "10.0.1"⟩]
    (by decide)
  rw [h]
  rfl

example : maxSatisfying ["1.5.0", "1.9.9", "2.0.0", "0.9.0"] "1.2.3" =
    some "1.9.9" := by decide
example : maxSatisfying ["2.0.0-alpha"] "1.2.3" = none := by decide
example : maxSatisfying ["v1.2.3"] "1.2.3" = some "v1.2.3" := by decide
example : pollImageForUpdates ⟨"r", "i", "1.2.3"⟩ ["v1.2.3"] =
    some ⟨"r", "i", "v1.2.3"⟩ := by decide
example : maxSatisfying ["0.2.9", "0.3.0"] "0.2.3" = some "0.2.9" := by decide
example : maxSatisfying ["1.2.3-beta", "1.2.4-alpha", "1.3.0"] "1.2.3-alpha" =
    some "1.3.0" := by decide
example : maxSatisfying ["1.2.3-beta", "1.2.4-alpha"] "1.2.3-alpha" =
    some "1.2.3-beta" := by decide
